import Mathlib

/-! Celero `Utilities.h`: the optimisation barrier and the timing constants.

A shallow embedding of `include/celero/Utilities.h`:

* `celero.DoNotOptimizeAway`, for both preprocessor branches (`WIN32` defined or not),
  as a transformer of an explicit program state (the caller's variables plus the
  function-local `static` reference `xPrime` of the `WIN32` branch);
* `celero.UsPerSec`, the `double` constant `1000000.0`, with a model of binary64
  rounding for the conversions and the division it is used in;
* `celero.StatisticalSample`, the `int` constant `30`, with a model of the counting
  `for` loop it bounds.
-/

namespace celero

/-! ## Numeric types -/

/-- The fixed-width integer types the barrier is instantiated with: `unsigned w` is an
unsigned `w`-bit type, `signed w` a two's-complement `w`-bit type of rank `int` or above
(no integral promotion takes place in `+=`). -/
inductive NumTy where
  | unsigned (w : Nat)
  | signed (w : Nat)
  deriving DecidableEq

/-- Values a variable of the type can hold. -/
def NumTy.inRange : NumTy → Int → Bool
  | .unsigned w, v => decide (0 ≤ v) && decide (v < 2 ^ w)
  | .signed w, v => decide (-(2 ^ (w - 1)) ≤ v) && decide (v < 2 ^ (w - 1))

/-- Largest value of the type (`std::numeric_limits<T>::max()`). -/
def NumTy.max : NumTy → Int
  | .unsigned w => 2 ^ w - 1
  | .signed w => 2 ^ (w - 1) - 1

/-- Smallest value of the type (`std::numeric_limits<T>::min()`). -/
def NumTy.min : NumTy → Int
  | .unsigned _ => 0
  | .signed w => -(2 ^ (w - 1))

/-- The ways a run can leave defined behaviour. -/
inductive Fault where
  | signedOverflow
  | danglingReference
  deriving DecidableEq

/-- The value `a + b` stored back by `a += b`: unsigned arithmetic wraps modulo `2 ^ w`,
signed arithmetic that leaves the range of the type is undefined. -/
def NumTy.add : NumTy → Int → Int → Except Fault Int
  | .unsigned w, a, b => .ok ((a + b) % 2 ^ w)
  | .signed w, a, b =>
    if NumTy.inRange (.signed w) (a + b) then .ok (a + b) else .error .signedOverflow

/-! ## Program state -/

/-- The two preprocessor branches of `DoNotOptimizeAway`. -/
inductive Build where
  | inlineAsm
  | win32
  deriving DecidableEq

/-- Program state seen by one instantiation `DoNotOptimizeAway<T>`: the values of the
caller's variables (named by address), which of them are within their lifetime, and the
function-local `static` reference `xPrime` (`none` until its initialisation has run). -/
structure State where
  mem : Nat → Int
  live : Nat → Bool
  xPrime : Option Nat

/-- Store `v` into the variable at address `a`. -/
def State.write (s : State) (a : Nat) (v : Int) : State :=
  { s with mem := fun b => if b = a then v else s.mem b }

/-- `template<class T> void DoNotOptimizeAway(T&& x)`, called with `x` bound to the variable
at address `x`.

* `WIN32`: `volatile static auto& xPrime = x; xPrime += x;`. The initialiser of a local
  `static` runs on the first call only, so the reference designates the argument of the
  first call from then on; `+=` reads both operands and stores the sum through `xPrime`.
* otherwise: `asm volatile("" : "+r" (x));`, an empty instruction sequence with `x` as
  a read-write register operand: the register is loaded from `x` and stored back. -/
def DoNotOptimizeAway (b : Build) (T : NumTy) (x : Nat) (s : State) : Except Fault State :=
  match b with
  | .inlineAsm => .ok (s.write x (s.mem x))
  | .win32 =>
    let p := match s.xPrime with
      | some q => q
      | none => x
    if s.live p then
      match T.add (s.mem p) (s.mem x) with
      | .ok r => .ok { s.write p r with xPrime := some p }
      | .error e => .error e
    else .error .danglingReference

/-- What a caller does between and around calls. -/
inductive Op where
  | call (x : Nat)
  | assign (x : Nat) (v : Int)
  | endLifetime (x : Nat)
  deriving DecidableEq

/-- One step of a caller. -/
def step (b : Build) (T : NumTy) (o : Op) (s : State) : Except Fault State :=
  match o with
  | .call x => DoNotOptimizeAway b T x s
  | .assign x v => .ok (s.write x v)
  | .endLifetime x => .ok { s with live := fun a => if a = x then false else s.live a }

/-- A straight-line sequence of steps, stopping at the first fault. -/
def run (b : Build) (T : NumTy) : List Op → State → Except Fault State
  | [], s => .ok s
  | o :: os, s =>
    match step b T o s with
    | .ok s' => run b T os s'
    | .error e => .error e

/-- Start of the program: every variable within its lifetime, `xPrime` not yet initialised. -/
def State.init (mem : Nat → Int) : State :=
  { mem := mem, live := fun _ => true, xPrime := none }

/-- The value left in variable `a` by a run, when it completes. -/
def valueAfter (r : Except Fault State) (a : Nat) : Option Int :=
  match r with
  | .ok s => some (s.mem a)
  | .error _ => none

/-- The fault a run ends in, if any. -/
def faultOf (r : Except Fault State) : Option Fault :=
  match r with
  | .ok _ => none
  | .error e => some e


/-! ## Loops -/

/-- The counting loop `for (int i = i0; i < bound; i++) body(i);` over a state `σ`; a
fault in the body ends the run. (`i < bound` keeps `i + 1` within the range of `int`.) -/
def forLoop {σ : Type} (bound : Int) (body : Int → σ → Except Fault σ) (i : Int) (s : σ) :
    Except Fault σ :=
  if i < bound then
    match body i s with
    | .ok s' => forLoop bound body (i + 1) s'
    | .error e => .error e
  else .ok s
termination_by (bound - i).toNat
decreasing_by omega

/-- The statement `x += i;` on a variable of type `T`. -/
def addAssign (T : NumTy) (x : Nat) (i : Int) (s : State) : Except Fault State :=
  match T.add (s.mem x) i with
  | .ok r => .ok (s.write x r)
  | .error e => .error e

/-- The expression statement `DoNotOptimizeAway(x += i);`: `x += i` is evaluated first and
yields the lvalue `x`, which the barrier is then called on. -/
def barrierAddAssign (b : Build) (T : NumTy) (x : Nat) (i : Int) (s : State) :
    Except Fault State :=
  match addAssign T x i s with
  | .ok s' => DoNotOptimizeAway b T x s'
  | .error e => .error e

/-- The type `int`. -/
def int : NumTy := .signed 32

/-- The baseline of the documentation: `int x = 0; for (int i = 0; i < n; i++) { x += i; }`
with `x` at address `x`. -/
def baselineLoop (n : Int) (x : Nat) (s : State) : Except Fault State :=
  forLoop n (addAssign int x) 0 (s.write x 0)

/-- The documented replacement:
`int x = 0; for (int i = 0; i < n; i++) { DoNotOptimizeAway(x += i); }`. -/
def barrierLoop (b : Build) (n : Int) (x : Nat) (s : State) : Except Fault State :=
  forLoop n (barrierAddAssign b int x) 0 (s.write x 0)

/-- `const auto StatisticalSample(30);`: the literal `30` has type `int`. -/
def StatisticalSample : Int := 30

/-! ## The type `double` -/

/-- A finite binary64 value `(-1) ^ neg * mant * 2 ^ exp`. -/
structure Double where
  neg : Bool
  mant : Nat
  exp : Int
  deriving DecidableEq

/-- The real number a `Double` stands for. -/
def Double.toRat (a : Double) : ℚ :=
  (if a.neg then -1 else 1) * (a.mant : ℚ) * (2 : ℚ) ^ a.exp

/-- Number of halvings that take `n` below 2, at most `fuel` of them. -/
def log2Aux : Nat → Nat → Nat
  | 0, _ => 0
  | fuel + 1, n => if n < 2 then 0 else log2Aux fuel (n / 2) + 1

/-- The position of the leading bit of `n`: `⌊log₂ n⌋` for positive `n`. -/
def ilog2 (n : Nat) : Nat := log2Aux n n

/-- The exponent of the last place of the quotient `n / d` (both positive) at 53 significant
bits: `⌊log₂ (n / d)⌋ - 52`. -/
def quotExp (n d : Nat) : Int :=
  let l : Int := (ilog2 n : Int) - (ilog2 d : Int)
  (if n * 2 ^ ilog2 d < d * 2 ^ ilog2 n then l - 1 else l) - 52

/-- The integer nearest to `n / (d * 2 ^ e)`, ties to even. -/
def roundAt (n d : Nat) (e : Int) : Nat :=
  let num := n * 2 ^ (-e).toNat
  let den := d * 2 ^ e.toNat
  let q := num / den
  let r := num % den
  if 2 * r < den then q else if den < 2 * r then q + 1 else if q % 2 = 0 then q else q + 1

/-- The binary64 value nearest to `(-1) ^ neg * (n / d) * 2 ^ shift` (round to nearest, ties
to even, the default rounding mode). `none` where the result is not a finite normal number
or zero: division by zero, overflow, and the subnormal range, which are not modelled. -/
def Double.round (neg : Bool) (n d : Nat) (shift : Int) : Option Double :=
  if d = 0 then none
  else if n = 0 then some ⟨neg, 0, 0⟩
  else
    let e := quotExp n d
    let q := roundAt n d e
    if -1074 ≤ e + shift ∧ e + shift ≤ 971 ∧ (q < 2 ^ 53 ∨ e + shift < 971) then
      some ⟨neg, q, e + shift⟩
    else none

/-- Conversion of an integer to `double`, as in `static_cast<double>(k)`. -/
def Double.ofInt (k : Int) : Option Double :=
  Double.round (decide (k < 0)) k.natAbs 1 0

/-- The quotient `a / b` of two `double`s. -/
def Double.div (a b : Double) : Option Double :=
  Double.round (a.neg != b.neg) a.mant b.mant (a.exp - b.exp)

/-- `const auto UsPerSec(1000000.0);`: the literal has type `double` and the value
`1000000 = 1000000 * 2 ^ 0`. -/
def UsPerSec : Double := ⟨false, 1000000, 0⟩

/-- The conversion `us / UsPerSec` of an integer count of microseconds to seconds. -/
def toSeconds (us : Int) : Option Double :=
  match Double.ofInt us with
  | some a => Double.div a UsPerSec
  | none => none

end celero

namespace celero

/-! ## Facts about the barrier -/

theorem write_mem (s : State) (a : Nat) (v : Int) (c : Nat) :
    (s.write a v).mem c = if c = a then v else s.mem c := rfl

theorem write_self_mem (s : State) (a c : Nat) : (s.write a (s.mem a)).mem c = s.mem c := by
  rw [write_mem]
  split
  · next h => rw [h]
  · rfl

theorem asm_call (T : NumTy) (x : Nat) (s : State) :
    DoNotOptimizeAway .inlineAsm T x s = .ok (s.write x (s.mem x)) := rfl

theorem asm_step_ok (T : NumTy) (o : Op) (s : State) :
    ∃ s', step .inlineAsm T o s = .ok s' := by
  cases o with
  | call x => exact ⟨_, rfl⟩
  | assign x v => exact ⟨_, rfl⟩
  | endLifetime x => exact ⟨_, rfl⟩

theorem asm_run_ok (T : NumTy) (ops : List Op) (s : State) :
    ∃ s', run .inlineAsm T ops s = .ok s' := by
  induction ops generalizing s with
  | nil => exact ⟨s, rfl⟩
  | cons o os ih =>
    obtain ⟨s1, h1⟩ := asm_step_ok T o s
    obtain ⟨s2, h2⟩ := ih s1
    exact ⟨s2, by simp only [run, h1, h2]⟩

/-- The `WIN32` branch on an unsigned type, once `xPrime` designates `p`. -/
theorem win32_call_bound (w x p : Nat) (s : State) (hp : s.xPrime = some p)
    (hl : s.live p = true) :
    DoNotOptimizeAway .win32 (.unsigned w) x s
      = .ok { s.write p ((s.mem p + s.mem x) % 2 ^ w) with xPrime := some p } := by
  simp only [DoNotOptimizeAway, hp, hl, NumTy.add, if_true]

/-- The `WIN32` branch on an unsigned type, first call. -/
theorem win32_call_first (w x : Nat) (s : State) (hp : s.xPrime = none)
    (hl : s.live x = true) :
    DoNotOptimizeAway .win32 (.unsigned w) x s
      = .ok { s.write x ((s.mem x + s.mem x) % 2 ^ w) with xPrime := some x } := by
  simp only [DoNotOptimizeAway, hp, hl, NumTy.add, if_true]

/-- Once bound, `xPrime` is never rebound: no step changes it. -/
theorem win32_step_xPrime (T : NumTy) (o : Op) (s s' : State) (p : Nat)
    (hp : s.xPrime = some p) (h : step .win32 T o s = .ok s') : s'.xPrime = some p := by
  cases o with
  | call x =>
    simp only [step, DoNotOptimizeAway, hp] at h
    split at h
    · split at h
      · injection h with h; rw [← h]
      · cases h
    · cases h
  | assign x v =>
    simp only [step] at h
    injection h with h; rw [← h]; exact hp
  | endLifetime x =>
    simp only [step] at h
    injection h with h; rw [← h]; exact hp

theorem win32_run_xPrime (T : NumTy) (ops : List Op) (s s' : State) (p : Nat)
    (hp : s.xPrime = some p) (h : run .win32 T ops s = .ok s') : s'.xPrime = some p := by
  induction ops generalizing s with
  | nil =>
    simp only [run] at h
    injection h with h; rw [← h]; exact hp
  | cons o os ih =>
    simp only [run] at h
    split at h
    · next s1 h1 => exact ih s1 (win32_step_xPrime T o s s1 p hp h1) h
    · cases h

/-- The first call binds `xPrime` to its argument. -/
theorem win32_first_call_binds (T : NumTy) (a : Nat) (s s' : State) (hp : s.xPrime = none)
    (h : DoNotOptimizeAway .win32 T a s = .ok s') : s'.xPrime = some a := by
  simp only [DoNotOptimizeAway, hp] at h
  split at h
  · split at h
    · injection h with h; rw [← h]
    · cases h
  · cases h

end celero

namespace celero

/-! ## The barrier claims -/

/-- C1: the barrier leaves the value it is given unchanged. This holds on the inline-assembly
branch for every type, variable and state; on the `WIN32` branch the first call on a
`uint32_t` variable holding 1 returns with the variable holding 2. -/
theorem C1_value_preserved_asm_not_win32 :
    (∀ (T : NumTy) (x : Nat) (s : State),
        valueAfter (DoNotOptimizeAway .inlineAsm T x s) x = some (s.mem x)) ∧
    valueAfter (DoNotOptimizeAway .win32 (.unsigned 32) 0 (State.init fun _ => 1)) 0
      = some 2 := by
  refine ⟨?_, by decide⟩
  intro T x s
  simp only [asm_call, valueAfter, write_self_mem]

/-- C2: a call touches only the value passed to that call. This holds on the inline-assembly
branch (a call changes no variable at all); on the `WIN32` branch, with `uint32_t` variables
`a` (address 0) and `b` (address 1) both holding 1, the call on `a` leaves `a = 2` and the
later call on `b` changes `a` to 3. -/
theorem C2_frame_asm_not_win32 :
    (∀ (T : NumTy) (b a : Nat) (s : State),
        valueAfter (DoNotOptimizeAway .inlineAsm T b s) a = some (s.mem a)) ∧
    valueAfter (run .win32 (.unsigned 32) [.call 0] (State.init fun _ => 1)) 0 = some 2 ∧
    valueAfter (run .win32 (.unsigned 32) [.call 0, .call 1] (State.init fun _ => 1)) 0
      = some 3 := by
  refine ⟨?_, by decide, by decide⟩
  intro T b a s
  simp only [asm_call, valueAfter, write_self_mem]

/-- C3: the value a call leaves in its argument depends on the argument value only. This
holds on the inline-assembly branch (two calls whose arguments hold the same `v` leave the
same value, whatever the variables and the rest of the two states); on the `WIN32` branch,
with `uint32_t` variables at addresses 0 and 1 both holding 1, the first call (on variable
0) leaves 2 in its argument and the second call (on variable 1) leaves 1 in its argument. -/
theorem C3_deterministic_asm_not_win32 :
    (∀ (T : NumTy) (x y : Nat) (s t : State) (v : Int),
        valueAfter (DoNotOptimizeAway .inlineAsm T x (s.write x v)) x
          = valueAfter (DoNotOptimizeAway .inlineAsm T y (t.write y v)) y) ∧
    valueAfter (run .win32 (.unsigned 32) [.call 0] (State.init fun _ => 1)) 0 = some 2 ∧
    valueAfter (run .win32 (.unsigned 32) [.call 0, .call 1] (State.init fun _ => 1)) 1
      = some 1 := by
  refine ⟨?_, by decide, by decide⟩
  intro T x y s t v
  simp only [asm_call, valueAfter, write_self_mem, write_mem, if_true]

/-- C4: a call never reaches an undefined state. This holds on the inline-assembly branch
after any sequence of caller steps; on the `WIN32` branch the first call on an `int`
holding `INT_MAX` (or `INT_MIN`) overflows in `xPrime += x`, and a call made after the
variable of the first call has ended its lifetime goes through the stale reference
`xPrime`. -/
theorem C4_no_fault_asm_not_win32 :
    (∀ (T : NumTy) (ops : List Op) (s : State), faultOf (run .inlineAsm T ops s) = none) ∧
    faultOf (DoNotOptimizeAway .win32 (.signed 32) 0
        (State.init fun _ => NumTy.max (.signed 32))) = some .signedOverflow ∧
    faultOf (DoNotOptimizeAway .win32 (.signed 32) 0
        (State.init fun _ => NumTy.min (.signed 32))) = some .signedOverflow ∧
    faultOf (run .win32 (.unsigned 32) [.call 0, .endLifetime 0, .call 1]
        (State.init fun _ => 1)) = some .danglingReference := by
  refine ⟨?_, by decide, by decide, by decide⟩
  intro T ops s
  obtain ⟨s', h⟩ := asm_run_ok T ops s
  rw [h]; rfl

end celero

namespace celero

/-- A `WIN32` call on the variable `xPrime` designates (or will designate, on the first
call) doubles that variable modulo `2 ^ w`. -/
theorem win32_call_self (w x : Nat) (s : State)
    (hp : s.xPrime = none ∨ s.xPrime = some x) (hl : s.live x = true) :
    ∃ s', DoNotOptimizeAway .win32 (.unsigned w) x s = .ok s' ∧
      s'.mem x = 2 * s.mem x % 2 ^ w ∧ s'.xPrime = some x ∧ s'.live x = true := by
  rcases hp with hp | hp
  · refine ⟨_, win32_call_first w x s hp hl, ?_, rfl, hl⟩
    simp only [write_mem, if_true, two_mul]
  · refine ⟨_, win32_call_bound w x x s hp hl, ?_, rfl, hl⟩
    simp only [write_mem, if_true, two_mul]

theorem win32_replicate_calls (w x : Nat) (k : Nat) (s : State)
    (hp : s.xPrime = none ∨ s.xPrime = some x) (hl : s.live x = true)
    (h0 : 0 ≤ s.mem x) (h1 : s.mem x < 2 ^ w) :
    valueAfter (run .win32 (.unsigned w) (List.replicate k (.call x)) s) x
      = some (s.mem x * 2 ^ k % 2 ^ w) := by
  induction k generalizing s with
  | zero =>
    simp only [List.replicate, run, valueAfter, pow_zero, mul_one]
    rw [Int.emod_eq_of_lt h0 h1]
  | succ k ih =>
    obtain ⟨s', hc, hm, hx, hl'⟩ := win32_call_self w x s hp hl
    have hpos : (0 : Int) < 2 ^ w := by positivity
    have h0' : 0 ≤ s'.mem x := by rw [hm]; exact Int.emod_nonneg _ (ne_of_gt hpos)
    have h1' : s'.mem x < 2 ^ w := by rw [hm]; exact Int.emod_lt_of_pos _ hpos
    have := ih s' (Or.inr hx) hl' h0' h1'
    simp only [List.replicate, run, step, hc]
    rw [this, hm, Int.mul_emod, Int.emod_emod_of_dvd _ (dvd_refl _), ← Int.mul_emod]
    congr 2
    ring

end celero

namespace celero

/-- C9: on the `WIN32` branch, `k` successive calls on the same variable `x` of an unsigned
`w`-bit type, beginning with the first call of the instantiation, leave `x` holding
`v * 2 ^ k` modulo `2 ^ w`, where `v` is the value `x` held before; a single first call
completes and leaves `2 * v` modulo `2 ^ w`, which differs from `v` unless `v = 0`. -/
theorem C9_win32_repeated_calls_double (w x k : Nat) (s : State)
    (hp : s.xPrime = none) (hl : s.live x = true)
    (h0 : 0 ≤ s.mem x) (h1 : s.mem x < 2 ^ w) :
    valueAfter (run .win32 (.unsigned w) (List.replicate k (.call x)) s) x
        = some (s.mem x * 2 ^ k % 2 ^ w) ∧
    valueAfter (DoNotOptimizeAway .win32 (.unsigned w) x s) x = some (2 * s.mem x % 2 ^ w) ∧
    (s.mem x ≠ 0 → 2 * s.mem x % 2 ^ w ≠ s.mem x) := by
  refine ⟨win32_replicate_calls w x k s (Or.inl hp) hl h0 h1, ?_, ?_⟩
  · obtain ⟨s', hc, hm, _, _⟩ := win32_call_self w x s (Or.inl hp) hl
    rw [hc]; simp only [valueAfter, hm]
  · intro hne heq
    have hpos : (0 : Int) < 2 ^ w := by positivity
    have hdvd : (2 : Int) ^ w ∣ 2 * s.mem x - s.mem x :=
      Int.dvd_sub_of_emod_eq heq
    have hv : 2 * s.mem x - s.mem x = s.mem x := by ring
    rw [hv] at hdvd
    have := Int.le_of_dvd (lt_of_le_of_ne h0 (Ne.symm hne)) hdvd
    omega

/-- Witness for C9: three calls on a `uint8_t` variable holding 5 leave 40. -/
theorem C9_win32_repeated_calls_double_witness :
    valueAfter (run .win32 (.unsigned 8) (List.replicate 3 (.call 0))
      (State.init fun _ => 5)) 0 = some (5 * 2 ^ 3 % 2 ^ 8) ∧
    valueAfter (DoNotOptimizeAway .win32 (.unsigned 8) 0 (State.init fun _ => 5)) 0
      = some (2 * 5 % 2 ^ 8) ∧
    ((5 : Int) ≠ 0 → 2 * (5 : Int) % 2 ^ 8 ≠ 5) :=
  C9_win32_repeated_calls_double 8 0 3 (State.init fun _ => 5) rfl rfl (by decide) (by decide)

/-- The `WIN32` branch on any type, once `xPrime` designates `p` and the sum is defined. -/
theorem win32_call_bound_any (T : NumTy) (x p : Nat) (r : Int) (s : State)
    (hp : s.xPrime = some p) (hl : s.live p = true)
    (hadd : T.add (s.mem p) (s.mem x) = .ok r) :
    DoNotOptimizeAway .win32 T x s = .ok { s.write p r with xPrime := some p } := by
  simp only [DoNotOptimizeAway, hp, hl, hadd, if_true]

/-- C10 (amended): on the `WIN32` branch `xPrime` is bound by the first call and never
rebound. If the first call of the instantiation `DoNotOptimizeAway<T>` was made on variable
`a` and the later steps `ops` of the caller completed in state `s` with `a` still within its
lifetime, then a call on a distinct variable `b` holding `vb` completes, leaves `b` holding
`vb`, and replaces the value `va` of `a` by `(va + vb) % 2 ^ w` when `T` is an unsigned
`w`-bit type and by `va + vb` when `T` is a signed type whose range contains `va + vb`;
`xPrime` still designates `a`. -/
theorem C10_win32_static_alias_bound_once (T : NumTy) (a b : Nat) (ops : List Op)
    (s0 s : State) (hp : s0.xPrime = none)
    (hrun : run .win32 T (.call a :: ops) s0 = .ok s)
    (hl : s.live a = true) (hab : b ≠ a)
    (hr : ∀ w, T = .signed w → NumTy.inRange (.signed w) (s.mem a + s.mem b) = true) :
    ∃ s', DoNotOptimizeAway .win32 T b s = .ok s' ∧
      s'.mem b = s.mem b ∧
      s'.mem a = (match T with
        | .unsigned w => (s.mem a + s.mem b) % 2 ^ w
        | .signed _ => s.mem a + s.mem b) ∧
      s'.xPrime = some a := by
  have hx : s.xPrime = some a := by
    simp only [run, step] at hrun
    split at hrun
    · next s1 h1 =>
      exact win32_run_xPrime _ ops s1 s a (win32_first_call_binds _ a s0 s1 hp h1) hrun
    · cases hrun
  cases T with
  | unsigned w =>
    refine ⟨_, win32_call_bound_any (.unsigned w) b a _ s hx hl rfl, ?_, ?_, rfl⟩
    · simp only [write_mem, if_neg hab]
    · simp only [write_mem, if_true]
  | signed w =>
    have hadd : NumTy.add (.signed w) (s.mem a) (s.mem b) = .ok (s.mem a + s.mem b) := by
      simp only [NumTy.add, hr w rfl, if_true]
    refine ⟨_, win32_call_bound_any (.signed w) b a _ s hx hl hadd, ?_, ?_, rfl⟩
    · simp only [write_mem, if_neg hab]
    · simp only [write_mem, if_true]

/-- Witness for C10. Unsigned: `uint8_t` variables `a` (address 0) and `b` (address 1)
holding 100; after the first call on `a` and an assignment `a = 200`, the call on `b` leaves
`b = 100` and `a = (200 + 100) % 256`. Signed: `int` variables `a` holding 5 and `b` holding
7; after the first call on `a` (which leaves 10), the call on `b` leaves `b = 7` and
`a = 10 + 7`. -/
theorem C10_win32_static_alias_bound_once_witness :
    (∃ s', DoNotOptimizeAway .win32 (.unsigned 8) 1
        ({ (State.init fun c => if c = 0 then 200 else 100).write 0 (400 % 2 ^ 8) with
            xPrime := some 0 }.write 0 200) = .ok s' ∧
      s'.mem 1 = 100 ∧ s'.mem 0 = (200 + 100) % 2 ^ 8 ∧ s'.xPrime = some 0) ∧
    (∃ s', DoNotOptimizeAway .win32 (.signed 32) 1
        { (State.init fun c => if c = 0 then 5 else 7).write 0 (5 + 5) with
            xPrime := some 0 } = .ok s' ∧
      s'.mem 1 = 7 ∧ s'.mem 0 = 10 + 7 ∧ s'.xPrime = some 0) :=
  ⟨C10_win32_static_alias_bound_once (.unsigned 8) 0 1 [.assign 0 200]
      (State.init fun c => if c = 0 then 200 else 100) _ rfl rfl rfl (by decide)
      (fun w h => by cases h),
   C10_win32_static_alias_bound_once (.signed 32) 0 1 []
      (State.init fun c => if c = 0 then 5 else 7) _ rfl rfl rfl (by decide)
      (fun w h => by cases h; decide)⟩

/-- C10 as stated fails on a signed instantiation: with `int` variables `a` (address 0) and
`b` (address 1), after the first call on `a` and the assignment `a = INT_MAX`, the call on
`b` holding 1 overflows in `xPrime += x` and does not leave `INT_MAX + 1` in `a`. -/
theorem C10_counterexample_signed_overflow :
    faultOf (run .win32 (.signed 32) [.call 0, .assign 0 (NumTy.max (.signed 32))]
        (State.init fun _ => 1)) = none ∧
    valueAfter (run .win32 (.signed 32) [.call 0, .assign 0 (NumTy.max (.signed 32))]
        (State.init fun _ => 1)) 1 = some 1 ∧
    faultOf (run .win32 (.signed 32)
        [.call 0, .assign 0 (NumTy.max (.signed 32)), .call 1]
        (State.init fun _ => 1)) = some .signedOverflow ∧
    valueAfter (run .win32 (.signed 32)
        [.call 0, .assign 0 (NumTy.max (.signed 32)), .call 1]
        (State.init fun _ => 1)) 0 ≠ some (NumTy.max (.signed 32) + 1) := by
  refine ⟨by decide, by decide, by decide, by decide⟩

end celero

namespace celero

/-! ## Loops: general facts -/

theorem forLoop_unfold {σ : Type} (bound : Int) (body : Int → σ → Except Fault σ) (i : Int)
    (s : σ) :
    forLoop bound body i s =
      if i < bound then
        match body i s with
        | .ok s' => forLoop bound body (i + 1) s'
        | .error e => .error e
      else .ok s := by
  rw [forLoop]

/-- A loop whose body cannot fault runs the body on `m, m + 1, ..., m + d - 1` in order, when
`m + d` is the bound. -/
theorem forLoop_total {σ : Type} (f : Int → σ → σ) (d m : Nat) (s : σ) :
    forLoop ((m + d : Nat) : Int) (fun i t => .ok (f i t)) (m : Int) s
      = .ok ((List.range' m d).foldl (fun t j => f (j : Int) t) s) := by
  induction d generalizing m s with
  | zero =>
    rw [forLoop_unfold]
    simp
  | succ d ih =>
    rw [forLoop_unfold]
    have hlt : (m : Int) < ((m + (d + 1) : Nat) : Int) := by push_cast; omega
    simp only [hlt, if_true]
    have hcast : ((m : Int) + 1) = ((m + 1 : Nat) : Int) := by push_cast; rfl
    have hb : m + (d + 1) = (m + 1) + d := by omega
    rw [hcast, hb, ih (m + 1) (f m s)]
    simp [List.range']

end celero

namespace celero

/-- C6: `StatisticalSample` is the integer 30, and the loop
`for (int i = 0; i < StatisticalSample; i++)` runs its body exactly 30 times, once for each
of `i = 0, 1, ..., 29` in order: the indices it visits are recorded as that list, and for any
body the loop is the 30-fold composition of the body over those indices. -/
theorem C6_statistical_sample_loop_runs_30_times :
    StatisticalSample = 30 ∧
    forLoop StatisticalSample (fun i (tr : List Int) => .ok (tr ++ [i])) 0 []
      = .ok [0, 1, 2, 3, 4, 5, 6, 7, 8, 9, 10, 11, 12, 13, 14, 15, 16, 17, 18, 19, 20,
          21, 22, 23, 24, 25, 26, 27, 28, 29] ∧
    (∀ (σ : Type) (f : Int → σ → σ) (s : σ),
      forLoop StatisticalSample (fun i t => .ok (f i t)) 0 s
        = .ok ((List.range 30).foldl (fun t j => f (j : Int) t) s)) ∧
    (List.range 30).length = 30 ∧ (List.range 30).Nodup := by
  have key : ∀ (σ : Type) (f : Int → σ → σ) (s : σ),
      forLoop StatisticalSample (fun i t => .ok (f i t)) 0 s
        = .ok ((List.range 30).foldl (fun t j => f (j : Int) t) s) := by
    intro σ f s
    have h := forLoop_total f 30 0 s
    rw [List.range_eq_range']
    exact h
  refine ⟨rfl, ?_, key, by simp, List.nodup_range 30⟩
  rw [key (List Int) (fun i tr => tr ++ [i]) []]
  rfl

end celero

namespace celero

/-! ## The accumulation loop of the documentation -/

theorem write_self (s : State) (a : Nat) : s.write a (s.mem a) = s := by
  cases s with
  | mk mem live xPrime =>
    simp only [State.write, State.mk.injEq, and_true]
    funext c
    split
    · next h => rw [h]
    · rfl

/-- On the inline-assembly branch the barrier returns the state it was called in. -/
theorem asm_call_id (T : NumTy) (x : Nat) (s : State) :
    DoNotOptimizeAway .inlineAsm T x s = .ok s := by
  rw [asm_call, write_self]

theorem asm_barrierAddAssign (T : NumTy) (x : Nat) :
    barrierAddAssign .inlineAsm T x = addAssign T x := by
  funext i s
  unfold barrierAddAssign
  cases h : addAssign T x i s with
  | ok s' => exact asm_call_id T x s'
  | error e => rfl

theorem asm_barrierLoop_eq (n : Int) (x : Nat) (s : State) :
    barrierLoop .inlineAsm n x s = baselineLoop n x s := by
  unfold barrierLoop baselineLoop
  rw [asm_barrierAddAssign]

/-- One `x += i` on an `int` whose sum stays below `2 ^ 31`. -/
theorem addAssign_int_ok (x : Nat) (i : Int) (s : State)
    (hlo : 0 ≤ s.mem x + i) (hhi : s.mem x + i < 2147483648) :
    addAssign int x i s = .ok (s.write x (s.mem x + i)) := by
  have hr : NumTy.inRange (.signed 32) (s.mem x + i) = true := by
    simp only [NumTy.inRange, Bool.and_eq_true, decide_eq_true_eq]
    constructor
    · norm_num; omega
    · norm_num; omega
  simp only [addAssign, int, NumTy.add, hr, if_true]

/-- One `x += i` on an `int` whose sum reaches `2 ^ 31`. -/
theorem addAssign_int_overflow (x : Nat) (i : Int) (s : State)
    (hhi : 2147483648 ≤ s.mem x + i) :
    addAssign int x i s = .error .signedOverflow := by
  have hr : NumTy.inRange (.signed 32) (s.mem x + i) = false := by
    simp only [NumTy.inRange, Bool.and_eq_false_imp, decide_eq_true_eq, decide_eq_false_iff_not]
    intro _
    norm_num; omega
  simp only [addAssign, int, NumTy.add, hr]
  rfl

/-- The first `d` iterations from index `m`, while the index stays at most 65536: the loop
arrives at index `m + d` with `x` holding `(m + d) * (m + d - 1) / 2`. -/
theorem baseline_prefix (n : Int) (x : Nat) (d m : Nat) (s : State)
    (hn : ((m + d : Nat) : Int) ≤ n) (hb : m + d ≤ 65536)
    (hx : 2 * s.mem x = (m : Int) * ((m : Int) - 1)) :
    ∃ s', forLoop n (addAssign int x) (m : Int) s
        = forLoop n (addAssign int x) ((m + d : Nat) : Int) s' ∧
      2 * s'.mem x = ((m + d : Nat) : Int) * (((m + d : Nat) : Int) - 1) := by
  induction d generalizing m s with
  | zero => exact ⟨s, rfl, by simpa using hx⟩
  | succ d ih =>
    have hm : (m : Int) < n := by push_cast at hn; omega
    have hm0 : (0 : Int) ≤ m := Int.ofNat_nonneg m
    have hm1 : (m : Int) ≤ 65535 := by omega
    have hsq : (m : Int) * (m : Int) ≤ 65535 * 65535 := by nlinarith
    have hlo : 0 ≤ s.mem x + m := by nlinarith
    have hhi : s.mem x + m < 2147483648 := by nlinarith
    have hx' : 2 * (s.write x (s.mem x + m)).mem x
        = ((m + 1 : Nat) : Int) * (((m + 1 : Nat) : Int) - 1) := by
      simp only [write_mem, if_true]
      push_cast
      linarith
    obtain ⟨s', h1, h2⟩ := ih (m + 1) (s.write x (s.mem x + m))
      (by push_cast at hn ⊢; omega) (by omega) hx'
    refine ⟨s', ?_, ?_⟩
    · rw [forLoop_unfold]
      simp only [hm, if_true, addAssign_int_ok x m s hlo hhi]
      have hc : (m : Int) + 1 = ((m + 1 : Nat) : Int) := by push_cast; rfl
      rw [hc, h1]
      congr 2
      omega
    · have e : m + 1 + d = m + (d + 1) := by omega
      rw [← e]; exact h2

end celero

namespace celero

/-- The baseline loop for a count within `0 ..= 65536` completes with the sum. -/
theorem baselineLoop_closed_form (n : Int) (x : Nat) (s : State) (h0 : 0 ≤ n)
    (h1 : n ≤ 65536) : valueAfter (baselineLoop n x s) x = some (n * (n - 1) / 2) := by
  obtain ⟨k, rfl⟩ := Int.eq_ofNat_of_zero_le h0
  have hk : k ≤ 65536 := by omega
  obtain ⟨s', he, hx⟩ := baseline_prefix (k : Int) x k 0 (s.write x 0)
    (by simp) (by omega) (by simp [write_mem])
  simp only [Nat.cast_zero, zero_add] at he hx
  have he' : baselineLoop (k : Int) x s = .ok s' := by
    unfold baselineLoop
    rw [he, forLoop_unfold]
    simp
  rw [he']
  simp only [valueAfter, Option.some.injEq]
  rw [← hx, Int.mul_ediv_cancel_left _ (by norm_num : (2 : Int) ≠ 0)]

/-- The baseline loop for a count above 65536 overflows `int` in iteration 65536. -/
theorem baselineLoop_overflow (n : Int) (x : Nat) (s : State) (h : 65536 < n) :
    baselineLoop n x s = .error .signedOverflow := by
  obtain ⟨s', he, hx⟩ := baseline_prefix n x 65536 0 (s.write x 0)
    (by push_cast; omega) (by omega) (by simp [write_mem])
  simp only [Nat.cast_zero, zero_add, Nat.cast_ofNat] at he hx
  unfold baselineLoop
  rw [he, forLoop_unfold]
  have hov : addAssign int x 65536 s' = .error .signedOverflow := by
    apply addAssign_int_overflow
    omega
  simp only [h, if_true, hov]

/-- C7 (amended): on the inline-assembly branch the loop
`x = 0; for i in 0..n-1: DoNotOptimizeAway(x += i)` on an `int` behaves exactly as the loop
`x = 0; for i in 0..n-1: x += i`, for every `n`; for `0 ≤ n ≤ 65536` both complete with
`x = n * (n - 1) / 2`, and for `n = 64` both complete with `x = 2016`. -/
theorem C7_asm_barrier_loop_refines_baseline (n : Int) (x : Nat) (s : State) :
    barrierLoop .inlineAsm n x s = baselineLoop n x s ∧
    (0 ≤ n → n ≤ 65536 →
      valueAfter (barrierLoop .inlineAsm n x s) x = some (n * (n - 1) / 2) ∧
      valueAfter (baselineLoop n x s) x = some (n * (n - 1) / 2)) ∧
    valueAfter (barrierLoop .inlineAsm 64 x s) x = some 2016 ∧
    valueAfter (baselineLoop 64 x s) x = some 2016 := by
  have h64 : valueAfter (baselineLoop 64 x s) x = some 2016 := by
    rw [baselineLoop_closed_form 64 x s (by norm_num) (by norm_num)]
    rfl
  refine ⟨asm_barrierLoop_eq n x s, ?_, ?_, h64⟩
  · intro h0 h1
    rw [asm_barrierLoop_eq]
    exact ⟨baselineLoop_closed_form n x s h0 h1, baselineLoop_closed_form n x s h0 h1⟩
  · rw [asm_barrierLoop_eq]; exact h64

/-- Witness for C7: at `n = 10` both loops complete with `x = 45`. -/
theorem C7_asm_barrier_loop_refines_baseline_witness :
    valueAfter (barrierLoop .inlineAsm 10 0 (State.init fun _ => 7)) 0
        = some (10 * (10 - 1) / 2) ∧
    valueAfter (baselineLoop 10 0 (State.init fun _ => 7)) 0 = some (10 * (10 - 1) / 2) :=
  (C7_asm_barrier_loop_refines_baseline 10 0 (State.init fun _ => 7)).2.1
    (by decide) (by decide)

/-- C7 as stated fails at `n = 65537`: `65537 * 65536 / 2 = 2147516416` exceeds `INT_MAX`, the
addition `x += 65536` of the last iteration overflows, and neither loop ends with that
value. -/
theorem C7_counterexample_int_overflow :
    faultOf (barrierLoop .inlineAsm 65537 0 (State.init fun _ => 0))
        = some .signedOverflow ∧
    faultOf (baselineLoop 65537 0 (State.init fun _ => 0)) = some .signedOverflow ∧
    valueAfter (barrierLoop .inlineAsm 65537 0 (State.init fun _ => 0)) 0
        ≠ some (65537 * (65537 - 1) / 2) := by
  have h := baselineLoop_overflow 65537 0 (State.init fun _ => 0) (by norm_num)
  rw [asm_barrierLoop_eq, h]
  exact ⟨rfl, rfl, by simp [valueAfter]⟩

end celero

namespace celero

/-! ## Binary64 rounding: exact cases -/

theorem log2Aux_spec (fuel n : Nat) (hn : 0 < n) (hf : n ≤ fuel) :
    2 ^ log2Aux fuel n ≤ n ∧ n < 2 ^ (log2Aux fuel n + 1) := by
  induction fuel generalizing n with
  | zero => omega
  | succ fuel ih =>
    unfold log2Aux
    by_cases h : n < 2
    · simp only [h, if_true]
      omega
    · simp only [h, if_false]
      obtain ⟨h1, h2⟩ := ih (n / 2) (by omega) (by omega)
      rw [pow_succ, pow_succ]
      rw [pow_succ] at h2
      omega

/-- The leading bit of a positive number: `2 ^ ilog2 n ≤ n < 2 ^ (ilog2 n + 1)`. -/
theorem ilog2_spec (n : Nat) (hn : 0 < n) : 2 ^ ilog2 n ≤ n ∧ n < 2 ^ (ilog2 n + 1) :=
  log2Aux_spec n n hn (le_refl n)

/-- The exponent chosen by `quotExp` brackets the quotient:
`2 ^ (e + 52) ≤ n / d < 2 ^ (e + 53)`. -/
theorem quotExp_bounds (n d : Nat) (hn : 0 < n) (hd : 0 < d) :
    (2 : ℚ) ^ (quotExp n d + 52) ≤ (n : ℚ) / d ∧ (n : ℚ) / d < (2 : ℚ) ^ (quotExp n d + 53) := by
  have hdq : (0 : ℚ) < d := by exact_mod_cast hd
  have h2 : (2 : ℚ) ≠ 0 := two_ne_zero
  have ha1 : ((2 : ℚ) ^ ilog2 n) ≤ n := by
    exact_mod_cast (ilog2_spec n hn).1
  have ha2 : (n : ℚ) < 2 * 2 ^ ilog2 n := by
    have := (ilog2_spec n hn).2
    rw [pow_succ] at this
    have h' : (n : ℚ) < ((2 ^ ilog2 n * 2 : Nat) : ℚ) := by exact_mod_cast this
    push_cast at h'
    linarith
  have hb1 : ((2 : ℚ) ^ ilog2 d) ≤ d := by
    exact_mod_cast (ilog2_spec d hd).1
  have hb2 : (d : ℚ) < 2 * 2 ^ ilog2 d := by
    have := (ilog2_spec d hd).2
    rw [pow_succ] at this
    have h' : (d : ℚ) < ((2 ^ ilog2 d * 2 : Nat) : ℚ) := by exact_mod_cast this
    push_cast at h'
    linarith
  have hpa : (0 : ℚ) < 2 ^ ilog2 n := by positivity
  have hpb : (0 : ℚ) < 2 ^ ilog2 d := by positivity
  unfold quotExp
  by_cases hc : n * 2 ^ ilog2 d < d * 2 ^ ilog2 n
  · have hcq : (n : ℚ) * 2 ^ ilog2 d < d * 2 ^ ilog2 n := by exact_mod_cast hc
    simp only [hc, if_true]
    have e1 : ((ilog2 n : Int) - (ilog2 d : Int) - 1 - 52 + 52)
        = (ilog2 n : Int) - ((ilog2 d : Int) + 1) := by ring
    have e2 : ((ilog2 n : Int) - (ilog2 d : Int) - 1 - 52 + 53)
        = (ilog2 n : Int) - (ilog2 d : Int) := by ring
    rw [e1, e2, zpow_sub₀ h2, zpow_sub₀ h2, zpow_add₀ h2, zpow_natCast, zpow_natCast, zpow_one]
    constructor
    · rw [div_le_div_iff₀ (by positivity) hdq]
      nlinarith
    · rw [div_lt_div_iff₀ hdq hpb]
      linarith
  · have hcq : (d : ℚ) * 2 ^ ilog2 n ≤ n * 2 ^ ilog2 d := by
      exact_mod_cast Nat.le_of_not_lt hc
    simp only [hc, if_false]
    have e1 : ((ilog2 n : Int) - (ilog2 d : Int) - 52 + 52)
        = (ilog2 n : Int) - (ilog2 d : Int) := by ring
    have e2 : ((ilog2 n : Int) - (ilog2 d : Int) - 52 + 53)
        = (ilog2 n : Int) + 1 - (ilog2 d : Int) := by ring
    rw [e1, e2, zpow_sub₀ h2, zpow_sub₀ h2, zpow_add₀ h2, zpow_natCast, zpow_natCast, zpow_one]
    constructor
    · rw [div_le_div_iff₀ hpb hdq]
      linarith
    · rw [div_lt_div_iff₀ hdq hpb]
      nlinarith

/-- Where `n / (d * 2 ^ e)` is the natural number `N`, `roundAt` returns `N`. -/
theorem roundAt_exact (n d N : Nat) (e : Int) (hd : 0 < d)
    (h : (n : ℚ) = N * (2 : ℚ) ^ e * d) : roundAt n d e = N := by
  have hnum : n * 2 ^ (-e).toNat = N * (d * 2 ^ e.toNat) := by
    obtain ⟨t, rfl | rfl⟩ := Int.eq_nat_or_neg e
    · have h' : (n : ℚ) = ((N * (d * 2 ^ t) : Nat) : ℚ) := by
        rw [h, zpow_natCast]; push_cast; ring
      have := Nat.cast_injective h'
      simp [this]
    · have h' : (((n * 2 ^ t : Nat)) : ℚ) = ((N * d : Nat) : ℚ) := by
        push_cast
        rw [h, zpow_neg, zpow_natCast]
        field_simp
      have := Nat.cast_injective h'
      cases t with
      | zero => simpa using this
      | succ t =>
        have hneg : (-(-((t + 1 : Nat) : Int))).toNat = t + 1 := by
          rw [neg_neg]; exact Int.toNat_natCast _
        have hz : (-((t + 1 : Nat) : Int)).toNat = 0 := by
          apply Int.toNat_eq_zero.mpr
          omega
        rw [hneg, hz, pow_zero, mul_one]
        exact this
  have hden : 0 < d * 2 ^ e.toNat := Nat.mul_pos hd (by positivity)
  unfold roundAt
  simp only [hnum, Nat.mul_mod_left, Nat.mul_zero, hden, if_true,
    Nat.mul_div_cancel _ hden]

end celero

namespace celero

/-- Rounding is exact on a quotient that is a 53-bit integer times a power of two, as long
as the result is in the normal range. -/
theorem round_exact (neg : Bool) (n d m : Nat) (j shift : Int) (hn : 0 < n) (hd : 0 < d)
    (hm : m < 2 ^ 53) (h : (n : ℚ) / d = m * (2 : ℚ) ^ j)
    (hr : -1074 ≤ quotExp n d + shift ∧ quotExp n d + shift ≤ 971) :
    ∃ a, Double.round neg n d shift = some a ∧ a.neg = neg ∧
      (a.mant : ℚ) * (2 : ℚ) ^ a.exp = (n : ℚ) / d * (2 : ℚ) ^ shift := by
  have hdq : (0 : ℚ) < d := by exact_mod_cast hd
  have h2 : (2 : ℚ) ≠ 0 := two_ne_zero
  obtain ⟨hlo, hhi⟩ := quotExp_bounds n d hn hd
  generalize he : quotExp n d = e at hlo hhi hr
  have hmq : (m : ℚ) < 2 ^ (53 : Int) := by
    have hm' : m < 9007199254740992 := by norm_num at hm; exact hm
    norm_num
    exact hm'
  have hpj : (0 : ℚ) < 2 ^ j := by positivity
  have hej : e ≤ j := by
    have h1 : (2 : ℚ) ^ (e + 52) < 2 ^ (53 + j) := by
      calc (2 : ℚ) ^ (e + 52) ≤ m * 2 ^ j := by rw [← h]; exact hlo
        _ < 2 ^ (53 : Int) * 2 ^ j := by exact mul_lt_mul_of_pos_right hmq hpj
        _ = 2 ^ (53 + j) := by rw [zpow_add₀ h2]
    have := (zpow_lt_zpow_iff_right₀ (by norm_num : (1 : ℚ) < 2)).mp h1
    omega
  obtain ⟨t, ht⟩ := Int.eq_ofNat_of_zero_le (sub_nonneg.mpr hej)
  have hj : j = e + t := by omega
  have hN : (n : ℚ) = ((m * 2 ^ t : Nat) : ℚ) * (2 : ℚ) ^ e * d := by
    have : (n : ℚ) = (n : ℚ) / d * d := by field_simp
    rw [this, h, hj, zpow_add₀ h2, zpow_natCast]
    push_cast
    ring
  have hra : roundAt n d e = m * 2 ^ t := roundAt_exact n d (m * 2 ^ t) e hd hN
  have hval : ((m * 2 ^ t : Nat) : ℚ) * (2 : ℚ) ^ e = (n : ℚ) / d := by
    rw [hN]; field_simp
  have hpe : (0 : ℚ) < 2 ^ e := by positivity
  have hNlt : m * 2 ^ t < 2 ^ 53 := by
    have h1 : ((m * 2 ^ t : Nat) : ℚ) * (2 : ℚ) ^ e < 2 ^ (53 : Int) * 2 ^ e := by
      rw [hval, ← zpow_add₀ h2, add_comm]; exact hhi
    have h3 : ((m * 2 ^ t : Nat) : ℚ) < 9007199254740992 := by
      have := lt_of_mul_lt_mul_right h1 (le_of_lt hpe)
      norm_num at this
      push_cast
      exact this
    have h4 : m * 2 ^ t < 9007199254740992 := by exact_mod_cast h3
    norm_num
    exact h4
  refine ⟨⟨neg, m * 2 ^ t, e + shift⟩, ?_, rfl, ?_⟩
  · unfold Double.round
    have hd0 : d ≠ 0 := Nat.pos_iff_ne_zero.mp hd
    have hn0 : n ≠ 0 := Nat.pos_iff_ne_zero.mp hn
    simp only [hd0, hn0, if_false, he, hra]
    rw [if_pos ⟨hr.1, hr.2, Or.inl hNlt⟩]
  · rw [zpow_add₀ h2, ← hval]
    ring

/-- Bounds on the exponent of the last place from bounds on the quotient. -/
theorem quotExp_range (n d : Nat) (lo hi : Int) (hn : 0 < n) (hd : 0 < d)
    (hlo : (2 : ℚ) ^ lo ≤ (n : ℚ) / d) (hhi : (n : ℚ) / d < (2 : ℚ) ^ hi) :
    lo - 53 < quotExp n d ∧ quotExp n d + 52 < hi := by
  obtain ⟨h1, h2⟩ := quotExp_bounds n d hn hd
  have one_lt : (1 : ℚ) < 2 := by norm_num
  constructor
  · have := (zpow_lt_zpow_iff_right₀ one_lt).mp (lt_of_le_of_lt hlo h2)
    omega
  · exact (zpow_lt_zpow_iff_right₀ one_lt).mp (lt_of_le_of_lt h1 hhi)

/-- A whole number of seconds, given in microseconds, converts to exactly that number of
seconds when the microsecond count is exactly representable (`|k| * 15625 < 2 ^ 53`). -/
theorem toSeconds_exact (k : Int) (hk : |k| * 15625 < 2 ^ 53) :
    ∃ q, toSeconds (k * 1000000) = some q ∧ q.toRat = (k : ℚ) := by
  have h2 : (2 : ℚ) ≠ 0 := two_ne_zero
  by_cases hk0 : k = 0
  · subst hk0
    exact ⟨⟨false, 0, 0⟩, rfl, by simp [Double.toRat]⟩
  have hKpos : 0 < k.natAbs := Int.natAbs_pos.mpr hk0
  have hKlt : k.natAbs * 15625 < 2 ^ 53 := by
    have : (k.natAbs : Int) * 15625 < 2 ^ 53 := by
      rw [Int.natCast_natAbs]
      exact hk
    exact_mod_cast this
  have hK1 : (1 : ℚ) ≤ (k.natAbs : ℚ) := by exact_mod_cast hKpos
  have hK40 : (k.natAbs : ℚ) < 2 ^ (40 : Int) := by
    have : k.natAbs < 2 ^ 40 := by omega
    have h' : (k.natAbs : ℚ) < ((2 ^ 40 : Nat) : ℚ) := by exact_mod_cast this
    rw [zpow_ofNat]
    push_cast at h'
    exact h'
  -- the conversion of the microsecond count
  have hnat : (k * 1000000).natAbs = k.natAbs * 1000000 := by
    rw [Int.natAbs_mul]; rfl
  have hq1 : ((k.natAbs * 1000000 : Nat) : ℚ) / ((1 : Nat) : ℚ)
      = ((k.natAbs * 15625 : Nat) : ℚ) * (2 : ℚ) ^ (6 : Int) := by
    rw [zpow_ofNat]
    push_cast
    ring
  have hr1 := quotExp_range (k.natAbs * 1000000) 1 0 59 (by omega) (by norm_num)
    (by rw [hq1, zpow_ofNat]; push_cast; norm_num; nlinarith)
    (by rw [hq1, zpow_ofNat]
        have : ((k.natAbs * 15625 : Nat) : ℚ) < ((2 ^ 53 : Nat) : ℚ) := by exact_mod_cast hKlt
        push_cast at this ⊢
        rw [zpow_ofNat]
        nlinarith)
  obtain ⟨a, ha, haneg, haval⟩ := round_exact (decide (k * 1000000 < 0))
    (k.natAbs * 1000000) 1 (k.natAbs * 15625) 6 0 (by omega) (by norm_num) hKlt hq1
    (by omega)
  have hof : Double.ofInt (k * 1000000) = some a := by
    unfold Double.ofInt
    rw [hnat]; exact ha
  have haval' : (a.mant : ℚ) = (k.natAbs : ℚ) * 1000000 * (2 : ℚ) ^ (-a.exp) := by
    have hp : (0 : ℚ) < 2 ^ a.exp := by positivity
    rw [zpow_neg]
    field_simp
    rw [haval]
    push_cast
    simp
  have hapos : 0 < a.mant := by
    have : (0 : ℚ) < (a.mant : ℚ) := by
      rw [haval']
      have : (0 : ℚ) < 2 ^ (-a.exp) := by positivity
      positivity
    exact_mod_cast this
  -- the division by `UsPerSec`
  have hq2 : (a.mant : ℚ) / ((1000000 : Nat) : ℚ) = (k.natAbs : ℚ) * (2 : ℚ) ^ (-a.exp) := by
    rw [haval']
    push_cast
    field_simp
    ring
  have hpe : (0 : ℚ) < 2 ^ (-a.exp) := by positivity
  have hr2 := quotExp_range a.mant 1000000 (-a.exp) (40 - a.exp) hapos (by norm_num)
    (by rw [hq2]; nlinarith)
    (by rw [hq2, sub_eq_add_neg, zpow_add₀ h2]
        exact mul_lt_mul_of_pos_right hK40 hpe)
  obtain ⟨q, hq, hqneg, hqval⟩ := round_exact (a.neg != UsPerSec.neg) a.mant 1000000
    k.natAbs (-a.exp) (a.exp - UsPerSec.exp) hapos (by norm_num) (by omega) hq2
    (by simp only [UsPerSec]; omega)
  refine ⟨q, ?_, ?_⟩
  · unfold toSeconds
    rw [hof]
    exact hq
  · have hval : (q.mant : ℚ) * (2 : ℚ) ^ q.exp = (k.natAbs : ℚ) := by
      rw [hqval, hq2]
      simp only [UsPerSec, sub_zero]
      rw [mul_assoc, ← zpow_add₀ h2]
      simp
    simp only [Double.toRat]
    rw [mul_assoc, hval, hqneg, haneg]
    simp only [UsPerSec, Bool.bne_false]
    rw [Nat.cast_natAbs]
    by_cases hneg : k < 0
    · have h1 : k * 1000000 < 0 := by omega
      simp only [h1, decide_True, if_true]
      rw [abs_of_neg hneg]
      push_cast
      ring
    · have h1 : ¬ k * 1000000 < 0 := by omega
      simp only [h1, decide_False]
      rw [abs_of_nonneg (not_lt.mp hneg)]
      simp

end celero

namespace celero

/-- C5 (amended): `UsPerSec` is exactly `1000000.0`; `2500000` microseconds divided by
`UsPerSec` is exactly `2.5`; and for every integer `k` with `|k| * 15625 < 2 ^ 53` (so that
`k * 1000000` converts to `double` exactly), `(k * 1000000) / UsPerSec` is computed without
error and equals `k`. -/
theorem C5_us_per_sec_exact_on_representable_multiples (k : Int)
    (hk : |k| * 15625 < 2 ^ 53) :
    UsPerSec.toRat = 1000000 ∧
    Option.map Double.toRat (toSeconds 2500000) = some (5 / 2) ∧
    Option.map Double.toRat (toSeconds (k * 1000000)) = some (k : ℚ) := by
  refine ⟨?_, ?_, ?_⟩
  · simp [UsPerSec, Double.toRat]
  · have h : toSeconds 2500000 = some ⟨false, 5629499534213120, -51⟩ := by rfl
    rw [h]
    simp only [Option.map_some', Double.toRat, Option.some.injEq]
    norm_num
  · obtain ⟨q, hq, hv⟩ := toSeconds_exact k hk
    rw [hq, Option.map_some', hv]

/-- Witness for C5: 3000000 microseconds are exactly 3 seconds. -/
theorem C5_us_per_sec_exact_on_representable_multiples_witness :
    UsPerSec.toRat = 1000000 ∧
    Option.map Double.toRat (toSeconds 2500000) = some (5 / 2) ∧
    Option.map Double.toRat (toSeconds (3 * 1000000)) = some ((3 : Int) : ℚ) :=
  C5_us_per_sec_exact_on_representable_multiples 3 (by norm_num)

/-- C5 as stated fails at `k = 576460752305`: the product `576460752305000000` (below
`2 ^ 63`) is not representable and converts to `4503599627382812 * 2 ^ 7`, and the quotient
by `UsPerSec` rounds to `4722366482882559 * 2 ^ (-13)`, which is `k - 2 ^ (-13)`. -/
theorem C5_counterexample_large_multiple :
    toSeconds (576460752305 * 1000000) = some ⟨false, 4722366482882559, -13⟩ ∧
    Option.map Double.toRat (toSeconds (576460752305 * 1000000))
      ≠ some ((576460752305 : Int) : ℚ) := by
  have h : toSeconds (576460752305 * 1000000) = some ⟨false, 4722366482882559, -13⟩ := by rfl
  refine ⟨h, ?_⟩
  rw [h]
  simp only [Option.map_some', Double.toRat, ne_eq, Option.some.injEq]
  norm_num

end celero
